import Mathlib

/-!
# HeavyKeeper sketch: a verification development

A shallow embedding of the HeavyKeeper streaming top-k frequency sketch
(spec.md sections 2-7; the binding layer exposes it as `HeavyKeeper` with
operations construct / update / update_batch / estimate / top_k / decay /
merge / stats / serialize / deserialize).  The core itself ships outside
the Python tree, so every definition below is modelled from the spec, with
concrete constants chosen where the spec leaves them open (hash mixing
constants, the decay factor's value, the PRNG).  Machine integers are
modelled as `Nat` with explicit caps where saturation matters; the spec's
real-valued parameters epsilon and delta are modelled as rationals.
-/

namespace SketchOxide

/-- Modelled from the spec (section 3, Data Model): a grid cell holds a
compact fingerprint of a key and an integer counter; the empty state is
the distinguished pair (fingerprint = 0, counter = 0). -/
structure Cell where
  fingerprint : ℕ
  counter : ℕ
deriving DecidableEq, Repr

/-- The distinguished empty cell (fingerprint = 0, counter = 0). -/
def emptyCell : Cell := ⟨0, 0⟩

/-- Saturation cap for a 64-bit counter (spec section 7: counter overflow is
handled by clamping at the maximum representable value). -/
def counterCap : ℕ := 2 ^ 64 - 1

/-- Numerator of the double-precision constant e used by the sizing
formulas, as the exact rational eNum / eDen. -/
def eNum : ℕ := 2718281828459045

/-- Denominator of the rational approximation of e. -/
def eDen : ℕ := 1000000000000000

/-- Modelled from the spec (section 3): `depth = ceil(ln(1/delta))`, realised
as the least positive d with e^d * delta >= 1 (equivalent to the ceiling of
the logarithm for delta in (0,1)); the comparison e^d * delta >= 1 is
written integrally as eNum^d * delta.num >= eDen^d * delta.den, and the
search is fuel-bounded. -/
def derivedDepthAux (delta : ℚ) : ℕ → ℕ → ℕ
  | 0, d => d
  | fuel + 1, d =>
    if eDen ^ d * delta.den ≤ eNum ^ d * delta.num.toNat then d
    else derivedDepthAux delta fuel (d + 1)

/-- Derived number of rows from delta. -/
def derivedDepth (delta : ℚ) : ℕ := derivedDepthAux delta 64 1

/-- Modelled from the spec (section 3): `width = ceil(e / epsilon)`, written
as the ceiling division of eNum * epsilon.den by eDen * epsilon.num. -/
def derivedWidth (epsilon : ℚ) : ℕ :=
  (eNum * epsilon.den + (eDen * epsilon.num.toNat - 1)) / (eDen * epsilon.num.toNat)

/-- 64-bit mixing step of the row-seeded key hash.  Modelled from the spec
(section 4.1): the concrete hash is unspecified there beyond being pure and
deterministic per (key, row); an FNV-style fold is used. -/
def hashStep (h b : ℕ) : ℕ := ((h + b + 1) * 1099511628211) % 2 ^ 64

/-- Row/purpose-seeded 64-bit hash of a byte-sequence key. -/
def hash64 (seed : ℕ) (key : List ℕ) : ℕ :=
  key.foldl hashStep ((14695981039346656037 + seed * 1234567891011) % 2 ^ 64)

/-- Modelled from the spec (sections 3 and 4.1): the row-specific fingerprint
of a key, forced nonzero so that (0,0) remains the distinguished empty cell. -/
def fingerprintOf (key : List ℕ) (row : ℕ) : ℕ :=
  hash64 (2 * row) key % (2 ^ 32 - 1) + 1

/-- Modelled from the spec (section 4.1): the row-specific column index of a
key, computed from an independent seeded hash, reduced into [0, width). -/
def columnOf (key : List ℕ) (row width : ℕ) : ℕ :=
  hash64 (2 * row + 1) key % width

/-- The grid as a sparse association list from (row, column) to nonempty
cells; absent positions denote the empty cell. -/
abbrev Grid := List ((ℕ × ℕ) × Cell)

/-- Read a grid position, defaulting to the empty cell. -/
def gridGet : Grid → ℕ × ℕ → Cell
  | [], _ => emptyCell
  | (q, c) :: rest, p => if q = p then c else gridGet rest p

/-- Write a grid position in place (first occurrence replaced, appended if
absent). -/
def gridSet : Grid → ℕ × ℕ → Cell → Grid
  | [], p, c => [(p, c)]
  | (q, d) :: rest, p, c => if q = p then (p, c) :: rest else (q, d) :: gridSet rest p c

/-- Modelled from the spec (section 4.2): a seedable, cryptographically
non-critical pseudo-random generator, realised as a 64-bit LCG. -/
def randNext (s : ℕ) : ℕ := (6364136223846793005 * s + 1442695040888963407) % 2 ^ 64

/-- The uniform draw from an LCG state: its top 32 bits, interpreted as a
rational u = randOut s / 2^32 in [0,1). -/
def randOut (s : ℕ) : ℕ := s / 2 ^ 32 % 2 ^ 32

/-- Modelled from the spec (section 4.2): the evictor's decay decision for
an existing counter c, drawn with probability b^(-c) for the fixed base
b = 1.08 = 27/25; the draw u < (25/27)^c is written integrally as
u * 27^c < 2^32 * 25^c with u the 32-bit uniform output. -/
def decayDecision (s c : ℕ) : Prop := randOut s * 27 ^ c < 2 ^ 32 * 25 ^ c

instance (s c : ℕ) : Decidable (decayDecision s c) := by
  unfold decayDecision; infer_instance

/-- Modelled from the spec (section 4.2): the per-unit collision loop.  For
each unit of the increment draw a decision with probability b^(-counter);
on a decay outcome the counter drops by one, and a counter reaching 0 makes
the cell empty and immediately re-inserted as (incoming fingerprint,
incoming increment); a non-decay outcome drops that unit. -/
def evictLoop (fpIn inc : ℕ) : Cell → ℕ → ℕ → Cell × ℕ
  | cell, 0, rng => (cell, rng)
  | cell, u + 1, rng =>
    let rng' := randNext rng
    if decayDecision rng' cell.counter then
      if cell.counter ≤ 1 then (⟨fpIn, inc⟩, rng')
      else evictLoop fpIn inc ⟨cell.fingerprint, cell.counter - 1⟩ u rng'
    else evictLoop fpIn inc cell u rng'

/-- Modelled from the spec (section 4.2): resolve one cell against one
incoming (fingerprint, increment) pair: insertion on an empty cell,
saturating reinforcement on a fingerprint match, probabilistic decay on a
collision. -/
def resolveCell (cell : Cell) (fpIn inc rng : ℕ) : Cell × ℕ :=
  if cell.fingerprint = 0 then (⟨fpIn, inc⟩, rng)
  else if cell.fingerprint = fpIn then (⟨cell.fingerprint, min (cell.counter + inc) counterCap⟩, rng)
  else evictLoop fpIn inc cell inc rng

/-- The key-indexed tracker entries: key bytes paired with the best-known
estimate, kept in descending estimate order (ties most-recent-first). -/
abbrev Tracker := List (List ℕ × ℕ)

/-- Look up a tracked key's stored estimate. -/
def trackerFind : Tracker → List ℕ → Option ℕ
  | [], _ => none
  | (k, v) :: rest, key => if k = key then some v else trackerFind rest key

/-- Remove a tracked key. -/
def trackerErase : Tracker → List ℕ → Tracker
  | [], _ => []
  | (k, v) :: rest, key => if k = key then rest else (k, v) :: trackerErase rest key

/-- Insert an entry before the first entry of estimate <= its own, keeping
the descending order with ties broken most-recent-first. -/
def insertEntry (key : List ℕ) (v : ℕ) : Tracker → Tracker
  | [] => [(key, v)]
  | e :: rest => if e.2 ≤ v then (key, v) :: e :: rest else e :: insertEntry key v rest

/-- The tracker's current minimum estimate (its eviction threshold). -/
def minEstimate (t : Tracker) : ℕ :=
  match t.getLast? with
  | none => 0
  | some e => e.2

/-- Modelled from the spec (section 4.3): `offer(key, candidate)`.  A tracked
key's estimate only ever increases here; an untracked key enters when the
tracker is below capacity or the candidate beats the current minimum, which
is then evicted. -/
def offer (k : ℕ) (t : Tracker) (key : List ℕ) (cand : ℕ) : Tracker :=
  match trackerFind t key with
  | some old => if old < cand then insertEntry key cand (trackerErase t key) else t
  | none =>
    if t.length < k then insertEntry key cand t
    else if minEstimate t < cand then insertEntry key cand t.dropLast else t

/-- Modelled from the spec (section 4.4): attenuate a counter by the fixed
global decay factor, rounding down (the spec fixes the factor's existence,
not its value; 9/10 is used, so the result is floor(9 * c / 10)). -/
def decayCounter (c : ℕ) : ℕ := 9 * c / 10

/-- Modelled from the spec (section 4.3): `decay_all` multiplies every
tracked estimate by the decay factor. -/
def trackerDecayAll (t : Tracker) : Tracker := t.map fun e => (e.1, decayCounter e.2)

/-- The sketch errors of spec section 7. -/
inductive SketchError where
  | invalidParameter
  | incompatibleSketch
  | decodeError
deriving DecidableEq, Repr

/-- Modelled from the spec (sections 3 and 4.4): the sketch state owned by
the controller: fixed configuration (k, epsilon, delta) with derived depth
and width, the cell grid, the top-k tracker, the running total-updates
counter and the per-instance PRNG state. -/
structure HeavyKeeper where
  k : ℕ
  epsilon : ℚ
  delta : ℚ
  depth : ℕ
  width : ℕ
  grid : Grid
  tracker : Tracker
  totalUpdates : ℕ
  rng : ℕ
deriving DecidableEq

instance {ε α : Type} [DecidableEq ε] [DecidableEq α] : DecidableEq (Except ε α) := fun a b =>
  match a, b with
  | .error x, .error y =>
    if h : x = y then .isTrue (by rw [h]) else .isFalse (by simp [h])
  | .error _, .ok _ => .isFalse (by simp)
  | .ok _, .error _ => .isFalse (by simp)
  | .ok x, .ok y =>
    if h : x = y then .isTrue (by rw [h]) else .isFalse (by simp [h])

/-- Modelled from the spec (section 4.4): construction validates k > 0 and
epsilon, delta strictly inside (0,1), else fails with InvalidParameter;
on success it computes and fixes depth and width once. -/
def mkHeavyKeeper (k : ℤ) (epsilon delta : ℚ) (seed : ℕ) : Except SketchError HeavyKeeper :=
  if k ≤ 0 ∨ epsilon ≤ 0 ∨ 1 ≤ epsilon ∨ delta ≤ 0 ∨ 1 ≤ delta then
    .error .invalidParameter
  else
    .ok { k := k.toNat, epsilon := epsilon, delta := delta,
          depth := derivedDepth delta, width := derivedWidth epsilon,
          grid := [], tracker := [], totalUpdates := 0, rng := seed }

/-- The per-row matching counters of a key: for each row whose addressed
cell's fingerprint matches the key's row fingerprint, that cell's counter. -/
def matchingCounters (depth width : ℕ) (g : Grid) (key : List ℕ) : List ℕ :=
  (List.range depth).filterMap fun r =>
    let c := gridGet g (r, columnOf key r width)
    if c.fingerprint = fingerprintOf key r then some c.counter else none

/-- Running minimum with an accumulator. -/
def minAux : ℕ → List ℕ → ℕ
  | a, [] => a
  | a, x :: rest => minAux (min a x) rest

/-- Minimum of a list of naturals, 0 when empty. -/
def minList : List ℕ → ℕ
  | [] => 0
  | x :: rest => minAux x rest

/-- Modelled from the spec (section 4.4): `estimate(key)` is the minimum
counter among the depth cells whose fingerprint matches, 0 if none match. -/
def estimateGrid (depth width : ℕ) (g : Grid) (key : List ℕ) : ℕ :=
  minList (matchingCounters depth width g key)

/-- `estimate` on the sketch state. -/
def estimate (s : HeavyKeeper) (key : List ℕ) : ℕ :=
  estimateGrid s.depth s.width s.grid key

/-- Resolve one row after another through the evictor, threading the grid
and the PRNG state. -/
def updateRows (key : List ℕ) (inc width : ℕ) : List ℕ → Grid → ℕ → Grid × ℕ
  | [], g, rng => (g, rng)
  | r :: rest, g, rng =>
    let p := (r, columnOf key r width)
    let res := resolveCell (gridGet g p) (fingerprintOf key r) inc rng
    updateRows key inc width rest (gridSet g p res.1) res.2

/-- Modelled from the spec (section 4.4): `update(key, increment)` resolves
the addressed cell of every row, re-reads the key's minimum-across-rows
estimate from the updated grid, offers it to the tracker, and bumps the
total-updates counter. -/
def update (s : HeavyKeeper) (key : List ℕ) (inc : ℕ) : HeavyKeeper :=
  let gr := updateRows key inc s.width (List.range s.depth) s.grid s.rng
  let est := estimateGrid s.depth s.width gr.1 key
  { s with grid := gr.1, rng := gr.2,
           tracker := offer s.k s.tracker key est,
           totalUpdates := s.totalUpdates + 1 }

/-- Modelled from the spec (section 4.4): `update_batch(keys)` is the
sequential loop of unit updates, realised as a fold. -/
def update_batch (s : HeavyKeeper) (keys : List (List ℕ)) : HeavyKeeper :=
  keys.foldl (fun t key => update t key 1) s

/-- The grid half of `decay()`: attenuate every stored counter, dropping
(and thereby clearing, fingerprint included) the cells whose counter
rounds to 0. -/
def decayGrid (g : Grid) : Grid :=
  g.filterMap fun e =>
    let c' := decayCounter e.2.counter
    if c' = 0 then none else some (e.1, ⟨e.2.fingerprint, c'⟩)

/-- Modelled from the spec (section 4.4): `decay()` attenuates every cell's
counter by the decay factor, clearing cells whose counter rounds to 0
(fingerprint included), and applies `decay_all` to the tracker. -/
def decay (s : HeavyKeeper) : HeavyKeeper :=
  { s with grid := decayGrid s.grid, tracker := trackerDecayAll s.tracker }

/-- Whether two sketches have identical configuration and sizing. -/
def sameConfig (a b : HeavyKeeper) : Prop :=
  a.k = b.k ∧ a.epsilon = b.epsilon ∧ a.delta = b.delta ∧ a.depth = b.depth ∧ a.width = b.width

instance (a b : HeavyKeeper) : Decidable (sameConfig a b) := by
  unfold sameConfig; infer_instance

/-- Modelled from the spec (sections 4.4 and 9): cell-by-cell merge: copy
over an empty side, sum counters with saturation on a fingerprint match,
otherwise keep the heavier cell with ties favouring the receiver. -/
def mergeCell (x y : Cell) : Cell :=
  if x.fingerprint = 0 then y
  else if y.fingerprint = 0 then x
  else if x.fingerprint = y.fingerprint then ⟨x.fingerprint, min (x.counter + y.counter) counterCap⟩
  else if x.counter < y.counter then y else x

/-- Row-major merged grid over all depth*width positions, keeping only
nonempty results. -/
def mergedGrid (depth width : ℕ) (ga gb : Grid) : Grid :=
  ((List.range (depth * width)).filterMap fun i =>
    let p := (i / width, i % width)
    let c := mergeCell (gridGet ga p) (gridGet gb p)
    if c = emptyCell then none else some (p, c))

/-- Modelled from the spec (section 4.4): after the cell merge, every key
tracked by either side is re-offered to a rebuilt tracker with its
minimum-across-rows estimate re-derived from the merged grid. -/
def rebuildTracker (k depth width : ℕ) (g : Grid) (keys : List (List ℕ)) : Tracker :=
  keys.foldl (fun t key => offer k t key (estimateGrid depth width g key)) []

/-- Modelled from the spec (section 4.4): `merge(other)` fails with
IncompatibleSketch unless the configurations (k, epsilon, delta, and the
derived depth/width) are identical; on success cells are merged pairwise,
the tracker is rebuilt from both key sets, and total-updates are summed.
The argument is left untouched. -/
def merge (a b : HeavyKeeper) : Except SketchError HeavyKeeper :=
  if sameConfig a b then
    let g := mergedGrid a.depth a.width a.grid b.grid
    .ok { a with
          grid := g,
          tracker := rebuildTracker a.k a.depth a.width g
            (a.tracker.map Prod.fst ++ b.tracker.map Prod.fst),
          totalUpdates := a.totalUpdates + b.totalUpdates }
  else .error .incompatibleSketch

/-- Fixed cell field widths used by `stats` and the serialized format. -/
def fingerprintBits : ℕ := 32

/-- Counter bit width. -/
def counterBits : ℕ := 64

/-- The read-only introspection record of spec section 4.4. -/
structure Stats where
  totalUpdates : ℕ
  k : ℕ
  depth : ℕ
  width : ℕ
  memoryBits : ℕ
deriving DecidableEq, Repr

/-- Modelled from the spec (section 4.4): `stats()` with `memory_bits` the
exact bit cost of the grid. -/
def stats (s : HeavyKeeper) : Stats :=
  { totalUpdates := s.totalUpdates, k := s.k, depth := s.depth, width := s.width,
    memoryBits := s.depth * s.width * (fingerprintBits + counterBits) }

/-- Modelled from the spec (section 4.4): `top_k()` is the tracker's
snapshot, already maintained in descending-estimate order. -/
def top_k (s : HeavyKeeper) : List (List ℕ × ℕ) := s.tracker

/-- A string key as the canonical byte sequence the core consumes. -/
def strKey (s : String) : List ℕ := s.toList.map Char.toNat

/-- Little-endian fixed-width encoding of an unsigned integer. -/
def encFixed : ℕ → ℕ → List ℕ
  | _, 0 => []
  | n, w + 1 => n % 256 :: encFixed (n / 256) w

/-- Little-endian decoding of a byte run. -/
def decodeLE : List ℕ → ℕ
  | [] => 0
  | b :: rest => b + 256 * decodeLE rest

/-- Consume a fixed-width unsigned integer from a byte stream, failing if
the stream is too short. -/
def readFixed (w : ℕ) (l : List ℕ) : Option (ℕ × List ℕ) :=
  if w ≤ l.length then some (decodeLE (l.take w), l.drop w) else none

/-- Consume a raw byte run of known length. -/
def readRaw (n : ℕ) (l : List ℕ) : Option (List ℕ × List ℕ) :=
  if n ≤ l.length then some (l.take n, l.drop n) else none

/-- Modelled from the spec (section 6): a serialized cell is its fingerprint
and counter in the fixed widths chosen at construction (u32, u64). -/
def encCell (c : Cell) : List ℕ := encFixed c.fingerprint 4 ++ encFixed c.counter 8

/-- Parse one cell. -/
def readCell (l : List ℕ) : Option (Cell × List ℕ) := do
  let (fp, l) ← readFixed 4 l
  let (cnt, l) ← readFixed 8 l
  pure (⟨fp, cnt⟩, l)

/-- Parse a run of exactly n cells. -/
def readCells : ℕ → List ℕ → Option (List Cell × List ℕ)
  | 0, l => some ([], l)
  | n + 1, l => do
    let (c, l) ← readCell l
    let (cs, l) ← readCells n l
    pure (c :: cs, l)

/-- Modelled from the spec (section 6): a tracker record is the key length
(u32), the key bytes, and the estimate (u64). -/
def encEntry (e : List ℕ × ℕ) : List ℕ := encFixed e.1.length 4 ++ e.1 ++ encFixed e.2 8

/-- Parse one tracker record. -/
def readEntry (l : List ℕ) : Option ((List ℕ × ℕ) × List ℕ) := do
  let (len, l) ← readFixed 4 l
  let (key, l) ← readRaw len l
  let (est, l) ← readFixed 8 l
  pure ((key, est), l)

/-- Parse a run of exactly n tracker records. -/
def readEntries : ℕ → List ℕ → Option (Tracker × List ℕ)
  | 0, l => some ([], l)
  | n + 1, l => do
    let (e, l) ← readEntry l
    let (es, l) ← readEntries n l
    pure (e :: es, l)

/-- The row-major cell contents of a depth*width grid. -/
def gridCellList (depth width : ℕ) (g : Grid) : List Cell :=
  (List.range (depth * width)).map fun i => gridGet g (i / width, i % width)

/-- Modelled from the spec (section 6): the serialized format is the header
(k, depth, width, epsilon, delta as exact rationals, total updates),
the depth*width cells row-major, then the tracker as a count followed by
its records.  The spec's f64 fields for epsilon and delta are modelled as
exact u64 numerator/denominator pairs because the embedding has no
floating-point numbers. -/
def serialize (s : HeavyKeeper) : List ℕ :=
  encFixed s.k 4 ++ encFixed s.depth 4 ++ encFixed s.width 4 ++
  encFixed s.epsilon.num.toNat 8 ++ encFixed s.epsilon.den 8 ++
  encFixed s.delta.num.toNat 8 ++ encFixed s.delta.den 8 ++
  encFixed s.totalUpdates 8 ++
  (gridCellList s.depth s.width s.grid).flatMap encCell ++
  encFixed s.tracker.length 4 ++ s.tracker.flatMap encEntry

/-- Rebuild the sparse grid from a row-major cell run, position i holding
row i / width and column i % width. -/
def rebuildGridAux (width : ℕ) : ℕ → List Cell → Grid
  | _, [] => []
  | i, c :: rest => ((i / width, i % width), c) :: rebuildGridAux width (i + 1) rest

/-- Parse a full byte stream into a sketch state; the PRNG state is not part
of the serialized format and restarts at 0. -/
def deserializeAux (l : List ℕ) : Option HeavyKeeper := do
  let (k, l) ← readFixed 4 l
  let (depth, l) ← readFixed 4 l
  let (width, l) ← readFixed 4 l
  let (epsNum, l) ← readFixed 8 l
  let (epsDen, l) ← readFixed 8 l
  let (delNum, l) ← readFixed 8 l
  let (delDen, l) ← readFixed 8 l
  let (tot, l) ← readFixed 8 l
  let epsilon := mkRat epsNum epsDen
  let delta := mkRat delNum delDen
  if depth = derivedDepth delta ∧ width = derivedWidth epsilon then
    let (cells, l) ← readCells (depth * width) l
    let (count, l) ← readFixed 4 l
    let (tracker, l) ← readEntries count l
    if l = [] then
      some { k := k, epsilon := epsilon, delta := delta, depth := depth, width := width,
             grid := rebuildGridAux width 0 cells, tracker := tracker,
             totalUpdates := tot, rng := 0 }
    else none
  else none

/-- Modelled from the spec (sections 6 and 7): `deserialize(bytes)` fails
with DecodeError when the byte length does not match the header-implied
size or the header's depth/width is inconsistent with (k, epsilon, delta). -/
def deserialize (l : List ℕ) : Except SketchError HeavyKeeper :=
  match deserializeAux l with
  | some s => .ok s
  | none => .error .decodeError

/-- The spec's loop form of batch updating: sequential unit update calls,
one per key, in order (spec section 4.4). -/
def updateSeq : HeavyKeeper → List (List ℕ) → HeavyKeeper
  | s, [] => s
  | s, key :: rest => updateSeq (update s key 1) rest

/-- A stream of update calls, each carrying a key and a count. -/
def applyCalls (s : HeavyKeeper) (calls : List (List ℕ × ℕ)) : HeavyKeeper :=
  calls.foldl (fun t e => update t e.1 e.2) s

/-- Every stored grid cell is nonempty in both fields: a counter is nonzero
only together with a nonzero fingerprint. -/
def CellsPos (g : Grid) : Prop := ∀ e ∈ g, e.2.fingerprint ≠ 0 ∧ e.2.counter ≠ 0

/-- The sparse grid holds at most one entry per position. -/
def GridKeysNodup (g : Grid) : Prop := (g.map Prod.fst).Nodup

/-- The tracker is ordered by non-increasing estimate. -/
def SortedDesc (t : Tracker) : Prop := t.Pairwise fun x y => y.2 ≤ x.2

/-- The structural invariant maintained by every sketch operation. -/
def Inv (s : HeavyKeeper) : Prop :=
  0 < s.k ∧ 0 < s.width ∧ CellsPos s.grid ∧ GridKeysNodup s.grid ∧
  SortedDesc s.tracker ∧ s.tracker.length ≤ s.k

instance (g : Grid) : Decidable (CellsPos g) := by
  unfold CellsPos; infer_instance

instance (g : Grid) : Decidable (GridKeysNodup g) := by
  unfold GridKeysNodup; exact List.nodupDecidable _

instance (t : Tracker) : Decidable (SortedDesc t) := by
  unfold SortedDesc; infer_instance

instance (s : HeavyKeeper) : Decidable (Inv s) := by
  unfold Inv; infer_instance

/-- The states reachable through the public operations: construction with
valid parameters followed by updates with positive counts, batch updates,
decays and successful merges. -/
inductive Reachable : HeavyKeeper → Prop
  | construct {k : ℤ} {epsilon delta : ℚ} {seed : ℕ} {s : HeavyKeeper} :
      mkHeavyKeeper k epsilon delta seed = .ok s → Reachable s
  | step_update {s : HeavyKeeper} {key : List ℕ} {inc : ℕ} :
      Reachable s → 0 < inc → Reachable (update s key inc)
  | step_batch {s : HeavyKeeper} {keys : List (List ℕ)} :
      Reachable s → Reachable (update_batch s keys)
  | step_decay {s : HeavyKeeper} :
      Reachable s → Reachable (decay s)
  | step_merge {a b s : HeavyKeeper} :
      Reachable a → Reachable b → merge a b = .ok s → Reachable s

/-- The bounds under which a state serializes losslessly: every field fits
its fixed width in the format of spec section 6, the derived depth/width
are consistent with (epsilon, delta), and the parameters are positive. -/
def WellFormed (s : HeavyKeeper) : Prop :=
  s.k < 256 ^ 4 ∧ s.depth < 256 ^ 4 ∧ s.width < 256 ^ 4 ∧
  0 < s.epsilon ∧ 0 < s.delta ∧
  s.epsilon.num.toNat < 256 ^ 8 ∧ s.epsilon.den < 256 ^ 8 ∧
  s.delta.num.toNat < 256 ^ 8 ∧ s.delta.den < 256 ^ 8 ∧
  s.depth = derivedDepth s.delta ∧ s.width = derivedWidth s.epsilon ∧
  s.totalUpdates < 256 ^ 8 ∧ s.tracker.length < 256 ^ 4 ∧
  (∀ e ∈ s.tracker, e.1.length < 256 ^ 4 ∧ e.2 < 256 ^ 8) ∧
  (∀ c ∈ gridCellList s.depth s.width s.grid,
    c.fingerprint < 256 ^ 4 ∧ c.counter < 256 ^ 8)

instance (s : HeavyKeeper) : Decidable (WellFormed s) := by
  unfold WellFormed; infer_instance

lemma sameConfig_symm {a b : HeavyKeeper} (h : sameConfig a b) : sameConfig b a :=
  ⟨h.1.symm, h.2.1.symm, h.2.2.1.symm, h.2.2.2.1.symm, h.2.2.2.2.symm⟩

/-- C2: construction with (k, epsilon, delta) fails with InvalidParameter
exactly when k <= 0 or epsilon or delta lies outside the open interval
(0,1); for every valid choice it succeeds, producing the empty sketch with
depth and width computed once from delta and epsilon. -/
theorem construction_iff (k : ℤ) (epsilon delta : ℚ) (seed : ℕ) :
    (mkHeavyKeeper k epsilon delta seed = .error .invalidParameter ↔
      k ≤ 0 ∨ epsilon ≤ 0 ∨ 1 ≤ epsilon ∨ delta ≤ 0 ∨ 1 ≤ delta) ∧
    (¬(k ≤ 0 ∨ epsilon ≤ 0 ∨ 1 ≤ epsilon ∨ delta ≤ 0 ∨ 1 ≤ delta) →
      mkHeavyKeeper k epsilon delta seed =
        .ok { k := k.toNat, epsilon := epsilon, delta := delta,
              depth := derivedDepth delta, width := derivedWidth epsilon,
              grid := [], tracker := [], totalUpdates := 0, rng := seed }) := by
  constructor
  · constructor
    · intro h
      by_contra hbad
      unfold mkHeavyKeeper at h
      rw [if_neg hbad] at h
      exact absurd h (by simp)
    · intro hbad
      unfold mkHeavyKeeper
      rw [if_pos hbad]
  · intro hgood
    unfold mkHeavyKeeper
    rw [if_neg hgood]

/-- Witness for C2: with k = 10, epsilon = 1/1000, delta = 1/100 the
constructor succeeds and fixes depth 5 and width 2719. -/
theorem construction_iff_witness :
    mkHeavyKeeper 10 (mkRat 1 1000) (mkRat 1 100) 7 =
      .ok ⟨10, mkRat 1 1000, mkRat 1 100, 5, 2719, [], [], 0, 7⟩ := by
  have h := (construction_iff 10 (mkRat 1 1000) (mkRat 1 100) 7).2 (by decide)
  exact h.trans (by decide)

/-- C1: merging is rejected with IncompatibleSketch, in both directions,
exactly when the two sketches differ in configuration (k, epsilon, delta,
or the derived depth/width); it succeeds exactly when the configurations
are identical. -/
theorem merge_incompatible_iff (a b : HeavyKeeper) :
    (merge a b = .error .incompatibleSketch ↔ ¬sameConfig a b) ∧
    (¬sameConfig a b →
      merge a b = .error .incompatibleSketch ∧ merge b a = .error .incompatibleSketch) ∧
    ((∃ s, merge a b = .ok s) ↔ sameConfig a b) := by
  by_cases h : sameConfig a b
  · refine ⟨⟨fun he => ?_, fun hn => absurd h hn⟩, fun hn => absurd h hn, ?_, fun _ => ?_⟩
    · unfold merge at he
      rw [if_pos h] at he
      exact absurd he (by simp)
    · exact fun _ => h
    · exact ⟨_, by unfold merge; rw [if_pos h]⟩
  · have h' : ¬sameConfig b a := fun hba => h (sameConfig_symm hba)
    refine ⟨⟨fun _ => h, fun _ => by unfold merge; rw [if_neg h]⟩, ?_, ?_, fun hc => absurd hc h⟩
    · exact fun _ => ⟨by unfold merge; rw [if_neg h], by unfold merge; rw [if_neg h']⟩
    · rintro ⟨s, hs⟩
      unfold merge at hs
      rw [if_neg h] at hs
      exact absurd hs (by simp)

/-- Witness for C1: two sketches of identical epsilon/delta but different k
refuse to merge in both directions. -/
theorem merge_incompatible_iff_witness :
    merge ⟨10, mkRat 1 1000, mkRat 1 100, 5, 2719, [], [], 0, 0⟩
        ⟨5, mkRat 1 1000, mkRat 1 100, 5, 2719, [], [], 0, 0⟩ = .error .incompatibleSketch ∧
    merge ⟨5, mkRat 1 1000, mkRat 1 100, 5, 2719, [], [], 0, 0⟩
        ⟨10, mkRat 1 1000, mkRat 1 100, 5, 2719, [], [], 0, 0⟩ = .error .incompatibleSketch :=
  (merge_incompatible_iff _ _).2.1 (by decide)

/-- C3: `update_batch(keys)` coincides, as a whole state and in every
observable (estimate, top_k, stats), with the sequential loop of unit
`update` calls over the same keys in order. -/
theorem update_batch_eq_updateSeq (s : HeavyKeeper) (keys : List (List ℕ)) :
    update_batch s keys = updateSeq s keys ∧
    (∀ key, estimate (update_batch s keys) key = estimate (updateSeq s keys) key) ∧
    top_k (update_batch s keys) = top_k (updateSeq s keys) ∧
    stats (update_batch s keys) = stats (updateSeq s keys) := by
  have h : update_batch s keys = updateSeq s keys := by
    induction keys generalizing s with
    | nil => rfl
    | cons key rest ih => simpa [update_batch, updateSeq] using ih (update s key 1)
  exact ⟨h, fun key => by rw [h], by rw [h], by rw [h]⟩

/-- C5: two sketches built from the same configuration and random seed that
receive the same update calls (keys and counts, in order) serialize to
bit-identical byte sequences. -/
theorem serialize_deterministic (k : ℤ) (epsilon delta : ℚ) (seed : ℕ)
    (calls : List (List ℕ × ℕ)) (a b : HeavyKeeper)
    (ha : mkHeavyKeeper k epsilon delta seed = .ok a)
    (hb : mkHeavyKeeper k epsilon delta seed = .ok b) :
    serialize (applyCalls a calls) = serialize (applyCalls b calls) := by
  have hab : a = b := by
    have h := ha.symm.trans hb
    exact Except.ok.inj h
  rw [hab]

/-- Witness for C5: both runs of a concrete two-call stream on the
(9/10, 1/2) configuration with seed 3 serialize identically. -/
theorem serialize_deterministic_witness :
    serialize (applyCalls ⟨10, mkRat 9 10, mkRat 1 2, 1, 4, [], [], 0, 3⟩
        [(⟨[1], 2⟩ : List ℕ × ℕ), ⟨[2], 1⟩]) =
    serialize (applyCalls ⟨10, mkRat 9 10, mkRat 1 2, 1, 4, [], [], 0, 3⟩
        [(⟨[1], 2⟩ : List ℕ × ℕ), ⟨[2], 1⟩]) :=
  serialize_deterministic 10 (mkRat 9 10) (mkRat 1 2) 3 _ _ _ (by decide) (by decide)

set_option maxRecDepth 1000000 in
/-- C9: with k = 10, epsilon = 1/1000, delta = 1/100, after 100 update
calls following the i % 10 key pattern, the estimate of item_5 is at
least 8 (it is exactly 10 here: no column collisions occur). -/
theorem concrete_scenario_estimate :
    ∃ s, mkHeavyKeeper 10 (mkRat 1 1000) (mkRat 1 100) 0 = .ok s ∧
      8 ≤ estimate
        ((List.range 100).foldl
          (fun t i => update t (strKey ("item_" ++ toString (i % 10))) 1) s)
        (strKey "item_5") := by
  refine ⟨⟨10, mkRat 1 1000, mkRat 1 100, 5, 2719, [], [], 0, 0⟩, by decide, ?_⟩
  decide

lemma gridGet_gridSet_self (g : Grid) (p : ℕ × ℕ) (c : Cell) :
    gridGet (gridSet g p c) p = c := by
  induction g with
  | nil => simp [gridSet, gridGet]
  | cons e rest ih =>
    obtain ⟨q, d⟩ := e
    by_cases h : q = p
    · simp [gridSet, h, gridGet]
    · simp [gridSet, h, gridGet, ih]

lemma gridGet_gridSet_ne (g : Grid) (p q : ℕ × ℕ) (c : Cell) (h : q ≠ p) :
    gridGet (gridSet g p c) q = gridGet g q := by
  have hpq : ¬(p = q) := fun hh => h hh.symm
  induction g with
  | nil =>
    simp only [gridSet, gridGet]
    rw [if_neg hpq]
  | cons e rest ih =>
    obtain ⟨q', d⟩ := e
    simp only [gridSet]
    by_cases h' : q' = p
    · subst h'
      rw [if_pos rfl]
      simp only [gridGet]
      rw [if_neg hpq, if_neg hpq]
    · rw [if_neg h']
      simp only [gridGet]
      by_cases h'' : q' = q
      · rw [if_pos h'', if_pos h'']
      · rw [if_neg h'', if_neg h'', ih]

lemma gridGet_eq_empty_of_not_mem (g : Grid) (p : ℕ × ℕ)
    (h : p ∉ g.map Prod.fst) : gridGet g p = emptyCell := by
  induction g with
  | nil => rfl
  | cons e rest ih =>
    simp only [List.map_cons, List.mem_cons] at h
    push_neg at h
    obtain ⟨q, d⟩ := e
    have : q ≠ p := fun hh => h.1 (hh ▸ rfl)
    simp [gridGet, this, ih h.2]

lemma filterMap_eq_map_of_forall {α β : Type} {f : α → Option β} {g : α → β}
    {l : List α} (h : ∀ a ∈ l, f a = some (g a)) : l.filterMap f = l.map g := by
  induction l with
  | nil => rfl
  | cons a rest ih =>
    rw [List.filterMap_cons, h a (by simp), List.map_cons,
      ih fun x hx => h x (by simp [hx])]

lemma filterMap_map_rel {α β γ : Type} {f : α → Option β} {f' : α → Option γ}
    {g : β → γ} {l : List α} (h : ∀ a ∈ l, f' a = (f a).map g) :
    l.filterMap f' = (l.filterMap f).map g := by
  induction l with
  | nil => rfl
  | cons a rest ih =>
    rw [List.filterMap_cons, List.filterMap_cons, h a (by simp)]
    cases f a with
    | none => exact ih fun x hx => h x (by simp [hx])
    | some b => simp [ih fun x hx => h x (by simp [hx])]

lemma minAux_le (a : ℕ) (l : List ℕ) : minAux a l ≤ a := by
  induction l generalizing a with
  | nil => exact le_refl a
  | cons x rest ih => exact le_trans (ih (min a x)) (min_le_left a x)

lemma minAux_le_of_mem {x : ℕ} {l : List ℕ} (a : ℕ) (h : x ∈ l) : minAux a l ≤ x := by
  induction l generalizing a with
  | nil => cases h
  | cons y rest ih =>
    rcases List.mem_cons.mp h with h' | h'
    · subst h'
      exact le_trans (minAux_le (min a x) rest) (min_le_right a x)
    · exact ih (min a y) h'

lemma minList_le_of_mem {x : ℕ} {l : List ℕ} (h : x ∈ l) : minList l ≤ x := by
  cases l with
  | nil => cases h
  | cons y rest =>
    show minAux y rest ≤ x
    rcases List.mem_cons.mp h with h' | h'
    · subst h'
      exact minAux_le x rest
    · exact minAux_le_of_mem y h'

lemma minAux_mem (a : ℕ) (l : List ℕ) : minAux a l = a ∨ minAux a l ∈ l := by
  induction l generalizing a with
  | nil => exact Or.inl rfl
  | cons x rest ih =>
    show minAux (min a x) rest = a ∨ minAux (min a x) rest ∈ x :: rest
    rcases ih (min a x) with h | h
    · rcases Nat.le_total a x with hax | hax
      · exact Or.inl (by rw [h, min_eq_left hax])
      · refine Or.inr ?_
        rw [h, min_eq_right hax]
        exact List.mem_cons_self x rest
    · exact Or.inr (List.mem_cons_of_mem x h)

lemma minList_mem {l : List ℕ} (h : l ≠ []) : minList l ∈ l := by
  cases l with
  | nil => exact absurd rfl h
  | cons x rest =>
    show minAux x rest ∈ x :: rest
    rcases minAux_mem x rest with h' | h'
    · rw [h']
      exact List.mem_cons_self x rest
    · exact List.mem_cons_of_mem x h'

lemma minAux_map_le {f : ℕ → ℕ} {l : List ℕ} (hf : ∀ x ∈ l, f x ≤ x)
    {a' a : ℕ} (ha : a' ≤ a) : minAux a' (l.map f) ≤ minAux a l := by
  induction l generalizing a a' with
  | nil => exact ha
  | cons x rest ih =>
    simp only [List.map_cons, minAux]
    exact ih (fun y hy => hf y (by simp [hy]))
      (min_le_min ha (hf x (by simp)))

lemma minList_map_le {f : ℕ → ℕ} {l : List ℕ} (hf : ∀ x ∈ l, f x ≤ x) :
    minList (l.map f) ≤ minList l := by
  cases l with
  | nil => exact le_refl 0
  | cons x rest =>
    exact minAux_map_le (fun y hy => hf y (by simp [hy])) (hf x (by simp))

lemma minAux_replicate (a : ℕ) (n : ℕ) : minAux a (List.replicate n a) = a := by
  induction n with
  | zero => rfl
  | succ m ih => simpa [List.replicate_succ, minAux] using ih

lemma minList_replicate {n : ℕ} (a : ℕ) (h : 1 ≤ n) : minList (List.replicate n a) = a := by
  cases n with
  | zero => cases h
  | succ m => simpa [List.replicate_succ, minList] using minAux_replicate a m

lemma derivedDepthAux_ge (delta : ℚ) (fuel d : ℕ) : d ≤ derivedDepthAux delta fuel d := by
  induction fuel generalizing d with
  | zero => exact le_refl d
  | succ n ih =>
    simp only [derivedDepthAux]
    by_cases h : eDen ^ d * delta.den ≤ eNum ^ d * delta.num.toNat
    · rw [if_pos h]
    · rw [if_neg h]
      exact le_trans (Nat.le_succ d) (ih (d + 1))

lemma one_le_derivedDepth (delta : ℚ) : 1 ≤ derivedDepth delta :=
  derivedDepthAux_ge delta 64 1

lemma mkHeavyKeeper_ok {k : ℤ} {epsilon delta : ℚ} {seed : ℕ} {s : HeavyKeeper}
    (h : mkHeavyKeeper k epsilon delta seed = .ok s) :
    s = { k := k.toNat, epsilon := epsilon, delta := delta,
          depth := derivedDepth delta, width := derivedWidth epsilon,
          grid := [], tracker := [], totalUpdates := 0, rng := seed } ∧
    ¬(k ≤ 0 ∨ epsilon ≤ 0 ∨ 1 ≤ epsilon ∨ delta ≤ 0 ∨ 1 ≤ delta) := by
  unfold mkHeavyKeeper at h
  split at h
  · exact absurd h (by simp)
  · exact ⟨(Except.ok.inj h).symm, by assumption⟩

lemma fingerprintOf_ne_zero (key : List ℕ) (row : ℕ) : fingerprintOf key row ≠ 0 := by
  unfold fingerprintOf
  omega

lemma updateRows_get_notin (key : List ℕ) (inc width : ℕ) (l : List ℕ) (g : Grid)
    (rng : ℕ) (p : ℕ × ℕ) (hp : p.1 ∉ l) :
    gridGet (updateRows key inc width l g rng).1 p = gridGet g p := by
  induction l generalizing g rng with
  | nil => rfl
  | cons r rest ih =>
    simp only [updateRows]
    rw [ih _ _ fun hh => hp (List.mem_cons_of_mem r hh)]
    refine gridGet_gridSet_ne _ _ _ _ fun hh => hp ?_
    rw [hh]
    exact List.mem_cons_self r rest

lemma updateRows_fresh_get (key : List ℕ) (inc width : ℕ) (l : List ℕ) (g : Grid)
    (rng : ℕ) (hnd : l.Nodup)
    (hempty : ∀ r ∈ l, gridGet g (r, columnOf key r width) = emptyCell) :
    ∀ r ∈ l, gridGet (updateRows key inc width l g rng).1 (r, columnOf key r width) =
      ⟨fingerprintOf key r, inc⟩ := by
  induction l generalizing g rng with
  | nil => intro r hr; cases hr
  | cons r0 rest ih =>
    obtain ⟨hr0, hrest⟩ := List.nodup_cons.mp hnd
    intro r hr
    simp only [updateRows]
    have hres : resolveCell (gridGet g (r0, columnOf key r0 width))
        (fingerprintOf key r0) inc rng = (⟨fingerprintOf key r0, inc⟩, rng) := by
      rw [hempty r0 (List.mem_cons_self r0 rest)]
      rfl
    rcases List.mem_cons.mp hr with h' | h'
    · subst h'
      rw [updateRows_get_notin key inc width rest _ _ _ (by simpa using hr0)]
      rw [hres, gridGet_gridSet_self]
    · refine ih _ _ hrest ?_ r h'
      intro r' hr'
      rw [gridGet_gridSet_ne]
      · exact hempty r' (List.mem_cons_of_mem r0 hr')
      · intro hh
        have : r' = r0 := congrArg Prod.fst hh
        exact hr0 (this ▸ hr')

/-- C10 (amended): a first `update(x)` into a freshly constructed sketch is
never dropped: every row inserts the key's fingerprint with counter 1, so
the estimate is at least 1.  (The update_batch variant of the claim fails:
a later key in the same batch can collide and probabilistically evict x,
see the counterexample.) -/
theorem fresh_update_estimate_pos (k : ℤ) (epsilon delta : ℚ) (seed : ℕ)
    (s : HeavyKeeper) (key : List ℕ)
    (h : mkHeavyKeeper k epsilon delta seed = .ok s) :
    1 ≤ estimate (update s key 1) key := by
  obtain ⟨hs, -⟩ := mkHeavyKeeper_ok h
  subst hs
  have hget := updateRows_fresh_get key 1 (derivedWidth epsilon)
    (List.range (derivedDepth delta)) [] seed (List.nodup_range _)
    (fun r _ => rfl)
  have hmc : matchingCounters (derivedDepth delta) (derivedWidth epsilon)
      (updateRows key 1 (derivedWidth epsilon) (List.range (derivedDepth delta)) [] seed).1 key
      = (List.range (derivedDepth delta)).map fun _ => 1 := by
    refine filterMap_eq_map_of_forall fun r hr => ?_
    simp [hget r hr]
  show 1 ≤ minList (matchingCounters (derivedDepth delta) (derivedWidth epsilon)
    (updateRows key 1 (derivedWidth epsilon) (List.range (derivedDepth delta)) [] seed).1 key)
  rw [hmc, List.map_const', List.length_range,
    minList_replicate 1 (one_le_derivedDepth delta)]

/-- Witness for C10 (amended): one update of the key [0] into the fresh
(9/10, 1/2) sketch with seed 7 yields a positive estimate. -/
theorem fresh_update_estimate_pos_witness :
    1 ≤ estimate (update ⟨10, mkRat 9 10, mkRat 1 2, 1, 4, [], [], 0, 7⟩ [0] 1) [0] :=
  fresh_update_estimate_pos 10 (mkRat 9 10) (mkRat 1 2) 7 _ [0] (by decide)

/-- Counterexample to C10 as stated: on a fresh (9/10, 1/2) sketch with
seed 0, the batch [[0], [4]] contains the key [0] exactly once, yet the
key [4] lands in the same single-row cell, wins the probabilistic eviction
draw, and replaces it: the estimate of [0] comes back 0, not >= 1. -/
theorem fresh_batch_estimate_cex :
    mkHeavyKeeper 10 (mkRat 9 10) (mkRat 1 2) 0 =
      .ok ⟨10, mkRat 9 10, mkRat 1 2, 1, 4, [], [], 0, 0⟩ ∧
    estimate (update_batch ⟨10, mkRat 9 10, mkRat 1 2, 1, 4, [], [], 0, 0⟩
      [[0], [4]]) [0] = 0 :=
  ⟨by decide, by decide⟩

lemma cellsPos_gridGet {g : Grid} (h : CellsPos g) (p : ℕ × ℕ) :
    gridGet g p = emptyCell ∨
      ((gridGet g p).fingerprint ≠ 0 ∧ (gridGet g p).counter ≠ 0) := by
  induction g with
  | nil => exact Or.inl rfl
  | cons e rest ih =>
    obtain ⟨q, d⟩ := e
    simp only [gridGet]
    by_cases hq : q = p
    · rw [if_pos hq]
      exact Or.inr (h (q, d) (List.mem_cons_self _ _))
    · rw [if_neg hq]
      exact ih fun e' he' => h e' (List.mem_cons_of_mem _ he')

lemma decayGrid_cons (e : (ℕ × ℕ) × Cell) (rest : Grid) :
    decayGrid (e :: rest) =
      (if decayCounter e.2.counter = 0 then decayGrid rest
       else (e.1, ⟨e.2.fingerprint, decayCounter e.2.counter⟩) :: decayGrid rest) := by
  rw [decayGrid, List.filterMap_cons]
  by_cases hc : decayCounter e.2.counter = 0
  · simp [hc, decayGrid]
  · simp [hc, decayGrid]

lemma mem_keys_decayGrid {g : Grid} {p : ℕ × ℕ}
    (h : p ∈ (decayGrid g).map Prod.fst) : p ∈ g.map Prod.fst := by
  induction g with
  | nil => simp [decayGrid] at h
  | cons e rest ih =>
    rw [decayGrid_cons] at h
    rw [List.map_cons]
    by_cases hc : decayCounter e.2.counter = 0
    · rw [if_pos hc] at h
      exact List.mem_cons_of_mem _ (ih h)
    · rw [if_neg hc, List.map_cons] at h
      rcases List.mem_cons.mp h with h' | h'
      · exact List.mem_cons.mpr (Or.inl h')
      · exact List.mem_cons_of_mem _ (ih h')

lemma gridGet_decayGrid (g : Grid) (hnd : (g.map Prod.fst).Nodup) (p : ℕ × ℕ) :
    gridGet (decayGrid g) p =
      (if decayCounter (gridGet g p).counter = 0 then emptyCell
       else ⟨(gridGet g p).fingerprint, decayCounter (gridGet g p).counter⟩) := by
  induction g with
  | nil => simp [decayGrid, gridGet, emptyCell, decayCounter]
  | cons e rest ih =>
    obtain ⟨q, d⟩ := e
    rw [List.map_cons] at hnd
    obtain ⟨hq, hrest⟩ := List.nodup_cons.mp hnd
    rw [decayGrid_cons]
    by_cases hpq : q = p
    · subst hpq
      have hrhs : gridGet ((q, d) :: rest) q = d := by simp [gridGet]
      rw [hrhs]
      by_cases hc : decayCounter d.counter = 0
      · rw [if_pos hc, if_pos hc]
        exact gridGet_eq_empty_of_not_mem _ _ fun hmem => hq (mem_keys_decayGrid hmem)
      · rw [if_neg hc, if_neg hc]
        simp [gridGet]
    · have hrhs : gridGet ((q, d) :: rest) p = gridGet rest p := by simp [gridGet, hpq]
      rw [hrhs]
      by_cases hc : decayCounter d.counter = 0
      · rw [if_pos hc]
        exact ih hrest
      · rw [if_neg hc]
        have hskip : gridGet ((q, (⟨d.fingerprint, decayCounter d.counter⟩ : Cell)) ::
            decayGrid rest) p = gridGet (decayGrid rest) p := by simp [gridGet, hpq]
        rw [hskip]
        exact ih hrest

lemma decayCounter_le (c : ℕ) : decayCounter c ≤ c := by
  unfold decayCounter
  omega

lemma mem_matchingCounters_ne_zero {depth width : ℕ} {g : Grid} {key : List ℕ}
    (hpos : CellsPos g) {x : ℕ} (hx : x ∈ matchingCounters depth width g key) :
    x ≠ 0 := by
  rw [matchingCounters] at hx
  obtain ⟨r, hr, hfr⟩ := List.mem_filterMap.mp hx
  simp only at hfr
  by_cases hmatch : (gridGet g (r, columnOf key r width)).fingerprint = fingerprintOf key r
  · rw [if_pos hmatch] at hfr
    rcases cellsPos_gridGet hpos (r, columnOf key r width) with hc | hc
    · rw [hc] at hmatch
      exact absurd hmatch.symm (fingerprintOf_ne_zero key r)
    · rw [← Option.some.inj hfr]
      exact hc.2
  · rw [if_neg hmatch] at hfr
    cases hfr

/-- C6 (amended): decay never raises an estimate as long as the pre-decay
estimate is not exactly 1 (and the grid satisfies the cell invariant): a
pre-decay estimate of 0 stays 0, and a pre-decay estimate >= 2 keeps every
matching cell alive so every matching counter shrinks.  When the estimate
is exactly 1, decay can clear the minimal matching cell while a heavier
matching cell survives, raising the estimate (see the counterexample). -/
theorem decay_estimate_le (s : HeavyKeeper) (key : List ℕ)
    (hpos : CellsPos s.grid) (hnd : GridKeysNodup s.grid)
    (hne : estimate s key ≠ 1) :
    estimate (decay s) key ≤ estimate s key := by
  by_cases hnil : matchingCounters s.depth s.width s.grid key = []
  · have hafter : matchingCounters s.depth s.width (decayGrid s.grid) key = [] := by
      rw [matchingCounters, List.filterMap_eq_nil_iff]
      intro r hr
      have horig := (List.filterMap_eq_nil_iff.mp hnil) r hr
      simp only at horig ⊢
      rw [gridGet_decayGrid s.grid hnd]
      by_cases hc : decayCounter (gridGet s.grid (r, columnOf key r s.width)).counter = 0
      · rw [if_pos hc]
        rw [if_neg fun hh : (emptyCell).fingerprint = fingerprintOf key r =>
          (fingerprintOf_ne_zero key r) hh.symm]
      · rw [if_neg hc]
        by_cases hmatch : (gridGet s.grid (r, columnOf key r s.width)).fingerprint =
            fingerprintOf key r
        · rw [if_pos hmatch] at horig
          cases horig
        · exact if_neg hmatch
    show minList (matchingCounters s.depth s.width (decayGrid s.grid) key) ≤ _
    rw [hafter]
    exact Nat.zero_le _
  · have hmem := minList_mem hnil
    have h2 : 2 ≤ minList (matchingCounters s.depth s.width s.grid key) := by
      have h0 := mem_matchingCounters_ne_zero hpos hmem
      have h1 : minList (matchingCounters s.depth s.width s.grid key) ≠ 1 := hne
      omega
    have hall2 : ∀ x ∈ matchingCounters s.depth s.width s.grid key, 2 ≤ x :=
      fun x hx => le_trans h2 (minList_le_of_mem hx)
    have hmap : matchingCounters s.depth s.width (decayGrid s.grid) key =
        (matchingCounters s.depth s.width s.grid key).map decayCounter := by
      rw [matchingCounters, matchingCounters]
      refine filterMap_map_rel fun r hr => ?_
      simp only
      rw [gridGet_decayGrid s.grid hnd]
      by_cases hmatch : (gridGet s.grid (r, columnOf key r s.width)).fingerprint =
          fingerprintOf key r
      · have hcount : (gridGet s.grid (r, columnOf key r s.width)).counter ∈
            matchingCounters s.depth s.width s.grid key := by
          rw [matchingCounters]
          exact List.mem_filterMap.mpr ⟨r, hr, by simp [hmatch]⟩
        have hge : 2 ≤ (gridGet s.grid (r, columnOf key r s.width)).counter :=
          hall2 _ hcount
        have hdc : decayCounter (gridGet s.grid (r, columnOf key r s.width)).counter ≠ 0 := by
          unfold decayCounter
          omega
        rw [if_neg hdc, if_pos hmatch]
        simp [hmatch]
      · by_cases hdc : decayCounter (gridGet s.grid (r, columnOf key r s.width)).counter = 0
        · rw [if_pos hdc]
          simp [emptyCell, hmatch, (fingerprintOf_ne_zero key r).symm]
        · rw [if_neg hdc]
          simp [hmatch]
    show minList (matchingCounters s.depth s.width (decayGrid s.grid) key) ≤ _
    rw [hmap]
    exact minList_map_le fun x _ => decayCounter_le x

/-- Witness for C6 (amended): a sketch holding the key [0] in both rows with
counters 3 and 5 has estimate 3; after decay the counters are 2 and 4 and
the estimate drops to 2. -/
theorem decay_estimate_le_witness :
    estimate (decay ⟨10, mkRat 9 10, mkRat 1 5, 2, 4,
      [((0, columnOf [0] 0 4), ⟨fingerprintOf [0] 0, 3⟩),
       ((1, columnOf [0] 1 4), ⟨fingerprintOf [0] 1, 5⟩)], [([0], 3)], 8, 0⟩) [0] ≤
    estimate (⟨10, mkRat 9 10, mkRat 1 5, 2, 4,
      [((0, columnOf [0] 0 4), ⟨fingerprintOf [0] 0, 3⟩),
       ((1, columnOf [0] 1 4), ⟨fingerprintOf [0] 1, 5⟩)], [([0], 3)], 8, 0⟩ :
      HeavyKeeper) [0] :=
  decay_estimate_le _ [0] (by decide) (by decide) (by decide)

lemma evictLoop_pos {fpIn inc : ℕ} (hfp : fpIn ≠ 0) (hinc : inc ≠ 0)
    (cell : Cell) (u rng : ℕ) (hcf : cell.fingerprint ≠ 0) (hcc : cell.counter ≠ 0) :
    (evictLoop fpIn inc cell u rng).1.fingerprint ≠ 0 ∧
      (evictLoop fpIn inc cell u rng).1.counter ≠ 0 := by
  induction u generalizing cell rng with
  | zero => exact ⟨hcf, hcc⟩
  | succ u ih =>
    simp only [evictLoop]
    by_cases hd : decayDecision (randNext rng) cell.counter
    · rw [if_pos hd]
      by_cases hle : cell.counter ≤ 1
      · rw [if_pos hle]
        exact ⟨hfp, hinc⟩
      · rw [if_neg hle]
        exact ih ⟨cell.fingerprint, cell.counter - 1⟩ _ hcf (by simp; omega)
    · rw [if_neg hd]
      exact ih cell _ hcf hcc

lemma resolveCell_pos {cell : Cell}
    (hcell : cell = emptyCell ∨ (cell.fingerprint ≠ 0 ∧ cell.counter ≠ 0))
    {fpIn inc : ℕ} (hfp : fpIn ≠ 0) (hinc : inc ≠ 0) (rng : ℕ) :
    (resolveCell cell fpIn inc rng).1.fingerprint ≠ 0 ∧
      (resolveCell cell fpIn inc rng).1.counter ≠ 0 := by
  unfold resolveCell
  by_cases h0 : cell.fingerprint = 0
  · rw [if_pos h0]
    exact ⟨hfp, hinc⟩
  · rw [if_neg h0]
    have hc : cell.counter ≠ 0 := by
      rcases hcell with h | h
      · rw [h] at h0
        exact absurd rfl h0
      · exact h.2
    by_cases heq : cell.fingerprint = fpIn
    · rw [if_pos heq]
      refine ⟨h0, ?_⟩
      show min (cell.counter + inc) counterCap ≠ 0
      unfold counterCap
      omega
    · rw [if_neg heq]
      exact evictLoop_pos hfp hinc cell inc rng h0 hc

lemma mem_gridSet {g : Grid} {p : ℕ × ℕ} {c : Cell} {e : (ℕ × ℕ) × Cell}
    (h : e ∈ gridSet g p c) : e = (p, c) ∨ e ∈ g := by
  induction g with
  | nil => simpa [gridSet] using h
  | cons e' rest ih =>
    obtain ⟨q, d⟩ := e'
    rw [gridSet] at h
    by_cases hq : q = p
    · rw [if_pos hq] at h
      rcases List.mem_cons.mp h with h' | h'
      · exact Or.inl h'
      · exact Or.inr (List.mem_cons_of_mem _ h')
    · rw [if_neg hq] at h
      rcases List.mem_cons.mp h with h' | h'
      · exact Or.inr (h' ▸ List.mem_cons_self _ _)
      · rcases ih h' with h'' | h''
        · exact Or.inl h''
        · exact Or.inr (List.mem_cons_of_mem _ h'')

lemma cellsPos_gridSet {g : Grid} (h : CellsPos g) {c : Cell}
    (hc : c.fingerprint ≠ 0 ∧ c.counter ≠ 0) (p : ℕ × ℕ) : CellsPos (gridSet g p c) :=
  fun e he => (mem_gridSet he).elim (fun h' => h' ▸ hc) (h e)

lemma mem_keys_gridSet {g : Grid} {p x : ℕ × ℕ} {c : Cell}
    (h : x ∈ (gridSet g p c).map Prod.fst) : x ∈ g.map Prod.fst ∨ x = p := by
  rcases List.mem_map.mp h with ⟨e, he, hx⟩
  rcases mem_gridSet he with h' | h'
  · exact Or.inr (by rw [← hx, h'])
  · exact Or.inl (List.mem_map.mpr ⟨e, h', hx⟩)

lemma nodup_gridSet {g : Grid} (h : GridKeysNodup g) (p : ℕ × ℕ) (c : Cell) :
    GridKeysNodup (gridSet g p c) := by
  induction g with
  | nil => simp [gridSet, GridKeysNodup]
  | cons e rest ih =>
    obtain ⟨q, d⟩ := e
    rw [GridKeysNodup, List.map_cons] at h
    obtain ⟨hq, hrest⟩ := List.nodup_cons.mp h
    rw [GridKeysNodup, gridSet]
    by_cases hqp : q = p
    · rw [if_pos hqp, List.map_cons]
      exact List.nodup_cons.mpr ⟨hqp ▸ hq, hrest⟩
    · rw [if_neg hqp, List.map_cons]
      refine List.nodup_cons.mpr ⟨?_, ih hrest⟩
      intro hmem
      rcases mem_keys_gridSet hmem with h' | h'
      · exact hq h'
      · exact hqp h'

lemma updateRows_cellsPos (key : List ℕ) {inc : ℕ} (hinc : inc ≠ 0) (width : ℕ)
    (l : List ℕ) {g : Grid} (hg : CellsPos g) (rng : ℕ) :
    CellsPos (updateRows key inc width l g rng).1 := by
  induction l generalizing g rng with
  | nil => exact hg
  | cons r rest ih =>
    simp only [updateRows]
    refine ih ?_ _
    refine cellsPos_gridSet hg ?_ _
    exact resolveCell_pos (cellsPos_gridGet hg _) (fingerprintOf_ne_zero key r) hinc rng

lemma updateRows_nodup (key : List ℕ) (inc width : ℕ) (l : List ℕ) {g : Grid}
    (hg : GridKeysNodup g) (rng : ℕ) :
    GridKeysNodup (updateRows key inc width l g rng).1 := by
  induction l generalizing g rng with
  | nil => exact hg
  | cons r rest ih =>
    simp only [updateRows]
    exact ih (nodup_gridSet hg _ _) _

lemma mem_insertEntry {key : List ℕ} {v : ℕ} {t : Tracker} {e : List ℕ × ℕ}
    (h : e ∈ insertEntry key v t) : e = (key, v) ∨ e ∈ t := by
  induction t with
  | nil => simpa [insertEntry] using h
  | cons e' rest ih =>
    rw [insertEntry] at h
    by_cases hle : e'.2 ≤ v
    · rw [if_pos hle] at h
      rcases List.mem_cons.mp h with h' | h'
      · exact Or.inl h'
      · exact Or.inr h'
    · rw [if_neg hle] at h
      rcases List.mem_cons.mp h with h' | h'
      · exact Or.inr (h' ▸ List.mem_cons_self _ _)
      · rcases ih h' with h'' | h''
        · exact Or.inl h''
        · exact Or.inr (List.mem_cons_of_mem _ h'')

lemma length_insertEntry (key : List ℕ) (v : ℕ) (t : Tracker) :
    (insertEntry key v t).length = t.length + 1 := by
  induction t with
  | nil => rfl
  | cons e rest ih =>
    rw [insertEntry]
    by_cases hle : e.2 ≤ v
    · rw [if_pos hle]
      rfl
    · rw [if_neg hle, List.length_cons, List.length_cons, ih]

lemma sortedDesc_insertEntry {t : Tracker} (h : SortedDesc t) (key : List ℕ) (v : ℕ) :
    SortedDesc (insertEntry key v t) := by
  induction t with
  | nil => simp [insertEntry, SortedDesc]
  | cons e rest ih =>
    rw [SortedDesc, List.pairwise_cons] at h
    obtain ⟨he, hrest⟩ := h
    rw [insertEntry]
    by_cases hle : e.2 ≤ v
    · rw [if_pos hle]
      refine List.pairwise_cons.mpr ⟨?_, List.pairwise_cons.mpr ⟨he, hrest⟩⟩
      intro y hy
      rcases List.mem_cons.mp hy with h' | h'
      · rw [h']
        exact hle
      · exact le_trans (he y h') hle
    · rw [if_neg hle]
      refine List.pairwise_cons.mpr ⟨?_, ih hrest⟩
      intro y hy
      rcases mem_insertEntry hy with h' | h'
      · rw [h']
        omega
      · exact he y h'

lemma trackerErase_length {t : Tracker} {key : List ℕ} {v : ℕ}
    (h : trackerFind t key = some v) : (trackerErase t key).length + 1 = t.length := by
  induction t with
  | nil => cases h
  | cons e rest ih =>
    obtain ⟨k', v'⟩ := e
    rw [trackerFind] at h
    rw [trackerErase]
    by_cases hk : k' = key
    · rw [if_pos hk]
      rfl
    · rw [if_neg hk] at h ⊢
      rw [List.length_cons, List.length_cons, ih h]

lemma trackerErase_sublist (t : Tracker) (key : List ℕ) :
    List.Sublist (trackerErase t key) t := by
  induction t with
  | nil => exact List.Sublist.refl []
  | cons e rest ih =>
    obtain ⟨k', v'⟩ := e
    rw [trackerErase]
    by_cases hk : k' = key
    · rw [if_pos hk]
      exact List.sublist_cons_self _ _
    · rw [if_neg hk]
      exact List.Sublist.cons₂ _ ih

lemma offer_sorted {t : Tracker} (h : SortedDesc t) (k : ℕ) (key : List ℕ) (cand : ℕ) :
    SortedDesc (offer k t key cand) := by
  rw [offer]
  split
  · split
    · exact sortedDesc_insertEntry (List.Pairwise.sublist (trackerErase_sublist t key) h) key cand
    · exact h
  · split
    · exact sortedDesc_insertEntry h key cand
    · split
      · exact sortedDesc_insertEntry (List.Pairwise.sublist (List.dropLast_sublist t) h) key cand
      · exact h

lemma offer_length {t : Tracker} {k : ℕ} (hk : 0 < k) (h : t.length ≤ k)
    (key : List ℕ) (cand : ℕ) : (offer k t key cand).length ≤ k := by
  rw [offer]
  split
  next old hfind =>
    split
    · rw [length_insertEntry, trackerErase_length hfind]
      exact h
    · exact h
  next hfind =>
    split
    · rw [length_insertEntry]
      omega
    · split
      · rw [length_insertEntry, List.length_dropLast]
        omega
      · exact h

/-- Counterexample to C6 as stated: in a sketch tracking the key [0] in two
rows with counters 1 and 5, the estimate before decay is 1; decay clears
the counter-1 cell (rounding to 0) but keeps the counter-5 cell at 4, so
the estimate after decay is 4 > 1. -/
theorem decay_estimate_cex :
    estimate (⟨10, mkRat 9 10, mkRat 1 5, 2, 4,
      [((0, columnOf [0] 0 4), ⟨fingerprintOf [0] 0, 1⟩),
       ((1, columnOf [0] 1 4), ⟨fingerprintOf [0] 1, 5⟩)], [([0], 1)], 6, 0⟩ :
      HeavyKeeper) [0] = 1 ∧
    estimate (decay ⟨10, mkRat 9 10, mkRat 1 5, 2, 4,
      [((0, columnOf [0] 0 4), ⟨fingerprintOf [0] 0, 1⟩),
       ((1, columnOf [0] 1 4), ⟨fingerprintOf [0] 1, 5⟩)], [([0], 1)], 6, 0⟩) [0] = 4 :=
  ⟨by decide, by decide⟩

lemma cellsPos_decayGrid {g : Grid} (h : CellsPos g) : CellsPos (decayGrid g) := by
  intro e he
  rw [decayGrid] at he
  obtain ⟨e', he', hf⟩ := List.mem_filterMap.mp he
  simp only at hf
  by_cases hc : decayCounter e'.2.counter = 0
  · rw [if_pos hc] at hf
    cases hf
  · rw [if_neg hc] at hf
    rw [← Option.some.inj hf]
    exact ⟨(h e' he').1, hc⟩

lemma keys_decayGrid_sublist (g : Grid) :
    List.Sublist ((decayGrid g).map Prod.fst) (g.map Prod.fst) := by
  induction g with
  | nil => exact List.Sublist.refl []
  | cons e rest ih =>
    rw [decayGrid_cons, List.map_cons]
    by_cases hc : decayCounter e.2.counter = 0
    · rw [if_pos hc]
      exact List.Sublist.trans ih (List.sublist_cons_self _ _)
    · rw [if_neg hc, List.map_cons]
      exact List.Sublist.cons₂ _ ih

lemma decayCounter_mono {a b : ℕ} (h : a ≤ b) : decayCounter a ≤ decayCounter b := by
  unfold decayCounter
  omega

lemma sortedDesc_trackerDecayAll {t : Tracker} (h : SortedDesc t) :
    SortedDesc (trackerDecayAll t) := by
  rw [trackerDecayAll, SortedDesc, List.pairwise_map]
  exact h.imp fun hxy => decayCounter_mono hxy

lemma decay_inv {s : HeavyKeeper} (h : Inv s) : Inv (decay s) := by
  obtain ⟨hk, hw, hcp, hnd, hsort, hlen⟩ := h
  refine ⟨hk, hw, cellsPos_decayGrid hcp,
    List.Nodup.sublist (keys_decayGrid_sublist s.grid) hnd,
    sortedDesc_trackerDecayAll hsort, ?_⟩
  show (trackerDecayAll s.tracker).length ≤ s.k
  rw [trackerDecayAll, List.length_map]
  exact hlen

lemma update_inv {s : HeavyKeeper} (h : Inv s) (key : List ℕ) {inc : ℕ}
    (hinc : inc ≠ 0) : Inv (update s key inc) := by
  obtain ⟨hk, hw, hcp, hnd, hsort, hlen⟩ := h
  exact ⟨hk, hw,
    updateRows_cellsPos key hinc s.width (List.range s.depth) hcp s.rng,
    updateRows_nodup key inc s.width (List.range s.depth) hnd s.rng,
    offer_sorted hsort s.k key _,
    offer_length hk hlen key _⟩

lemma update_batch_inv {s : HeavyKeeper} (h : Inv s) (keys : List (List ℕ)) :
    Inv (update_batch s keys) := by
  induction keys generalizing s with
  | nil => exact h
  | cons key rest ih =>
    show Inv (update_batch (update s key 1) rest)
    exact ih (update_inv h key one_ne_zero)

lemma mergeCell_pos {x y : Cell}
    (hx : x = emptyCell ∨ (x.fingerprint ≠ 0 ∧ x.counter ≠ 0))
    (hy : y = emptyCell ∨ (y.fingerprint ≠ 0 ∧ y.counter ≠ 0))
    (hne : mergeCell x y ≠ emptyCell) :
    (mergeCell x y).fingerprint ≠ 0 ∧ (mergeCell x y).counter ≠ 0 := by
  unfold mergeCell at hne ⊢
  by_cases h1 : x.fingerprint = 0
  · rw [if_pos h1] at hne ⊢
    rcases hy with h | h
    · exact absurd h hne
    · exact h
  · rw [if_neg h1] at hne ⊢
    have hxpos : x.fingerprint ≠ 0 ∧ x.counter ≠ 0 := by
      rcases hx with h | h
      · rw [h] at h1
        exact absurd rfl h1
      · exact h
    by_cases h2 : y.fingerprint = 0
    · rw [if_pos h2] at hne ⊢
      exact hxpos
    · rw [if_neg h2] at hne ⊢
      have hypos : y.fingerprint ≠ 0 ∧ y.counter ≠ 0 := by
        rcases hy with h | h
        · rw [h] at h2
          exact absurd rfl h2
        · exact h
      by_cases h3 : x.fingerprint = y.fingerprint
      · rw [if_pos h3]
        refine ⟨h1, ?_⟩
        show min (x.counter + y.counter) counterCap ≠ 0
        have := hxpos.2
        unfold counterCap
        omega
      · rw [if_neg h3]
        by_cases h4 : x.counter < y.counter
        · rw [if_pos h4]
          exact hypos
        · rw [if_neg h4]
          exact hxpos

lemma cellsPos_mergedGrid {ga gb : Grid} (ha : CellsPos ga) (hb : CellsPos gb)
    (depth width : ℕ) : CellsPos (mergedGrid depth width ga gb) := by
  intro e he
  rw [mergedGrid] at he
  obtain ⟨i, hi, hf⟩ := List.mem_filterMap.mp he
  simp only at hf
  by_cases hne : mergeCell (gridGet ga (i / width, i % width))
      (gridGet gb (i / width, i % width)) = emptyCell
  · rw [if_pos hne] at hf
    cases hf
  · rw [if_neg hne] at hf
    rw [← Option.some.inj hf]
    exact mergeCell_pos (cellsPos_gridGet ha _) (cellsPos_gridGet hb _) hne

lemma nodup_mergedGrid (ga gb : Grid) (depth : ℕ) {width : ℕ} (_hw : 0 < width) :
    GridKeysNodup (mergedGrid depth width ga gb) := by
  rw [GridKeysNodup, mergedGrid, List.map_filterMap]
  refine List.Nodup.filterMap ?_ (List.nodup_range _)
  intro i j b hbi hbj
  have hsome : ∀ m : ℕ, ∀ c ∈ (Option.map Prod.fst
      (if mergeCell (gridGet ga (m / width, m % width)) (gridGet gb (m / width, m % width))
          = emptyCell then none
       else some ((m / width, m % width),
        mergeCell (gridGet ga (m / width, m % width)) (gridGet gb (m / width, m % width))))),
      c = (m / width, m % width) := by
    intro m c hc
    by_cases hne : mergeCell (gridGet ga (m / width, m % width))
        (gridGet gb (m / width, m % width)) = emptyCell
    · rw [if_pos hne] at hc
      cases hc
    · rw [if_neg hne] at hc
      simp at hc
      exact hc.symm
  have hbi' := hsome i b (by simpa using hbi)
  have hbj' := hsome j b (by simpa using hbj)
  have hdiv : i / width = j / width := by
    have := hbi'.symm.trans hbj'
    exact congrArg Prod.fst this
  have hmod : i % width = j % width := by
    have := hbi'.symm.trans hbj'
    exact congrArg Prod.snd this
  calc i = width * (i / width) + i % width := (Nat.div_add_mod i width).symm
    _ = width * (j / width) + j % width := by rw [hdiv, hmod]
    _ = j := Nat.div_add_mod j width

lemma foldl_offer_inv {k : ℕ} (hk : 0 < k) (keys : List (List ℕ))
    (f : List ℕ → ℕ) (t : Tracker) (ht : SortedDesc t ∧ t.length ≤ k) :
    SortedDesc (keys.foldl (fun t key => offer k t key (f key)) t) ∧
      (keys.foldl (fun t key => offer k t key (f key)) t).length ≤ k := by
  induction keys generalizing t with
  | nil => exact ht
  | cons key rest ih =>
    exact ih _ ⟨offer_sorted ht.1 k key (f key), offer_length hk ht.2 key (f key)⟩

lemma merge_inv {a b s : HeavyKeeper} (ha : Inv a) (hb : Inv b)
    (h : merge a b = .ok s) : Inv s := by
  unfold merge at h
  by_cases hc : sameConfig a b
  · rw [if_pos hc] at h
    rw [← Except.ok.inj h]
    obtain ⟨hk, hw, hcp, hnd, hsort, hlen⟩ := ha
    have htr := foldl_offer_inv hk (a.tracker.map Prod.fst ++ b.tracker.map Prod.fst)
      (fun key => estimateGrid a.depth a.width (mergedGrid a.depth a.width a.grid b.grid) key)
      [] ⟨List.Pairwise.nil, by simp⟩
    exact ⟨hk, hw, cellsPos_mergedGrid hcp hb.2.2.1 a.depth a.width,
      nodup_mergedGrid a.grid b.grid a.depth hw, htr.1, htr.2⟩
  · rw [if_neg hc] at h
    cases h

lemma derivedWidth_pos {epsilon : ℚ} (h0 : 0 < epsilon) : 0 < derivedWidth epsilon := by
  unfold derivedWidth
  have hnum : 1 ≤ epsilon.num.toNat := by
    have := Rat.num_pos.mpr h0
    omega
  have hden : 1 ≤ epsilon.den := epsilon.pos
  have hD : 0 < eDen * epsilon.num.toNat := by
    have : (0:ℕ) < eDen := by norm_num [eDen]
    exact Nat.mul_pos this hnum
  refine Nat.div_pos ?_ hD
  have h1 : 1 ≤ eNum * epsilon.den := by
    have : (1:ℕ) ≤ eNum := by norm_num [eNum]
    exact Nat.one_le_iff_ne_zero.mpr (Nat.mul_ne_zero (by omega) (by omega))
  omega

lemma mk_inv {k : ℤ} {epsilon delta : ℚ} {seed : ℕ} {s : HeavyKeeper}
    (h : mkHeavyKeeper k epsilon delta seed = .ok s) : Inv s := by
  obtain ⟨hs, hgood⟩ := mkHeavyKeeper_ok h
  push_neg at hgood
  subst hs
  refine ⟨?_, derivedWidth_pos hgood.2.1, ?_, ?_, ?_, ?_⟩
  · show 0 < Int.toNat k
    have := hgood.1
    omega
  · intro e he
    cases he
  · exact List.Pairwise.nil
  · exact List.Pairwise.nil
  · show (0:ℕ) ≤ Int.toNat k
    exact Nat.zero_le _

lemma inv_of_reachable {s : HeavyKeeper} (h : Reachable s) : Inv s := by
  induction h with
  | construct hmk => exact mk_inv hmk
  | step_update hr hinc ih => exact update_inv ih _ (by omega)
  | step_batch hr ih => exact update_batch_inv ih _
  | step_decay hr ih => exact decay_inv ih
  | step_merge hra hrb hm iha ihb => exact merge_inv iha ihb hm

lemma encFixed_length (n w : ℕ) : (encFixed n w).length = w := by
  induction w generalizing n with
  | zero => rfl
  | succ m ih => simp [encFixed, ih]

lemma decodeLE_encFixed {n w : ℕ} (h : n < 256 ^ w) : decodeLE (encFixed n w) = n := by
  induction w generalizing n with
  | zero =>
    rw [pow_zero] at h
    show (0:ℕ) = n
    omega
  | succ m ih =>
    rw [encFixed, decodeLE]
    rw [ih (by rw [pow_succ] at h; omega)]
    omega

lemma readFixed_enc {n w : ℕ} (h : n < 256 ^ w) (r : List ℕ) :
    readFixed w (encFixed n w ++ r) = some (n, r) := by
  rw [readFixed, if_pos]
  · rw [List.take_left' (encFixed_length n w), List.drop_left' (encFixed_length n w),
      decodeLE_encFixed h]
  · rw [List.length_append, encFixed_length]
    omega

lemma readRaw_append (key r : List ℕ) : readRaw key.length (key ++ r) = some (key, r) := by
  rw [readRaw, if_pos]
  · rw [List.take_left, List.drop_left]
  · rw [List.length_append]
    omega

lemma readCell_enc {c : Cell} (h1 : c.fingerprint < 256 ^ 4) (h2 : c.counter < 256 ^ 8)
    (r : List ℕ) : readCell (encCell c ++ r) = some (c, r) := by
  unfold readCell encCell
  rw [List.append_assoc, readFixed_enc h1]
  simp only [Option.bind_eq_bind, Option.some_bind]
  rw [readFixed_enc h2]
  simp only [Option.bind_eq_bind, Option.some_bind]
  rfl

lemma readCells_flatMap {cs : List Cell}
    (h : ∀ c ∈ cs, c.fingerprint < 256 ^ 4 ∧ c.counter < 256 ^ 8) (r : List ℕ) :
    readCells cs.length (cs.flatMap encCell ++ r) = some (cs, r) := by
  induction cs with
  | nil => rfl
  | cons c rest ih =>
    show readCells (rest.length + 1) ((c :: rest).flatMap encCell ++ r) = _
    rw [List.flatMap_cons, List.append_assoc, readCells,
      readCell_enc (h c (List.mem_cons_self c rest)).1 (h c (List.mem_cons_self c rest)).2]
    simp only [Option.bind_eq_bind, Option.some_bind]
    rw [ih fun x hx => h x (List.mem_cons_of_mem c hx)]
    simp only [Option.bind_eq_bind, Option.some_bind]
    rfl

lemma readEntry_enc {e : List ℕ × ℕ} (h1 : e.1.length < 256 ^ 4) (h2 : e.2 < 256 ^ 8)
    (r : List ℕ) : readEntry (encEntry e ++ r) = some (e, r) := by
  unfold readEntry encEntry
  rw [List.append_assoc, List.append_assoc, readFixed_enc h1]
  simp only [Option.bind_eq_bind, Option.some_bind]
  rw [readRaw_append]
  simp only [Option.bind_eq_bind, Option.some_bind]
  rw [readFixed_enc h2]
  simp only [Option.bind_eq_bind, Option.some_bind]
  rfl

lemma readEntries_flatMap {es : Tracker}
    (h : ∀ e ∈ es, e.1.length < 256 ^ 4 ∧ e.2 < 256 ^ 8) (r : List ℕ) :
    readEntries es.length (es.flatMap encEntry ++ r) = some (es, r) := by
  induction es with
  | nil => rfl
  | cons e rest ih =>
    show readEntries (rest.length + 1) ((e :: rest).flatMap encEntry ++ r) = _
    rw [List.flatMap_cons, List.append_assoc, readEntries,
      readEntry_enc (h e (List.mem_cons_self e rest)).1 (h e (List.mem_cons_self e rest)).2]
    simp only [Option.bind_eq_bind, Option.some_bind]
    rw [ih fun x hx => h x (List.mem_cons_of_mem e hx)]
    simp only [Option.bind_eq_bind, Option.some_bind]
    rfl

lemma gridCellList_length (depth width : ℕ) (g : Grid) :
    (gridCellList depth width g).length = depth * width := by
  rw [gridCellList, List.length_map, List.length_range]

lemma rowcol_div_mod {width r c : ℕ} (hc : c < width) :
    (r * width + c) / width = r ∧ (r * width + c) % width = c := by
  have hw : 0 < width := by omega
  constructor
  · rw [Nat.mul_comm r width, Nat.mul_add_div hw, Nat.div_eq_of_lt hc]
    omega
  · rw [Nat.mul_comm r width, Nat.mul_add_mod, Nat.mod_eq_of_lt hc]

lemma getD_map_range {α : Type} (f : ℕ → α) {n j : ℕ} (h : j < n) (d : α) :
    ((List.range n).map f).getD j d = f j := by
  rw [List.getD_eq_getElem?_getD, List.getElem?_map, List.getElem?_range h]
  rfl

lemma gridGet_rebuildAux {width : ℕ} (cells : List Cell) (i r c : ℕ) (hc : c < width) :
    gridGet (rebuildGridAux width i cells) (r, c) =
      (if i ≤ r * width + c ∧ r * width + c - i < cells.length
       then cells.getD (r * width + c - i) emptyCell else emptyCell) := by
  induction cells generalizing i with
  | nil =>
    rw [rebuildGridAux]
    rw [if_neg (by simp only [List.length_nil]; omega)]
    rfl
  | cons c0 rest ih =>
    rw [rebuildGridAux]
    have hkey : ((i / width, i % width) = (r, c)) ↔ i = r * width + c := by
      constructor
      · intro hh
        rw [Prod.mk.injEq] at hh
        calc i = width * (i / width) + i % width := (Nat.div_add_mod i width).symm
          _ = width * r + c := by rw [hh.1, hh.2]
          _ = r * width + c := by rw [Nat.mul_comm]
      · intro hh
        subst hh
        rw [Prod.mk.injEq]
        exact rowcol_div_mod hc
    rw [gridGet]
    by_cases hij : i = r * width + c
    · rw [if_pos (hkey.mpr hij)]
      rw [if_pos ⟨by omega, by simp only [List.length_cons]; omega⟩]
      rw [show r * width + c - i = 0 from by omega, List.getD_cons_zero]
    · rw [if_neg (fun hh => hij (hkey.mp hh))]
      rw [ih (i + 1)]
      by_cases h1 : i + 1 ≤ r * width + c ∧ r * width + c - (i + 1) < rest.length
      · rw [if_pos h1, if_pos (by simp only [List.length_cons]; omega)]
        obtain ⟨m, hm⟩ : ∃ m, r * width + c - i = m + 1 :=
          ⟨r * width + c - i - 1, by omega⟩
        rw [hm, List.getD_cons_succ]
        congr 1
        omega
      · rw [if_neg h1, if_neg (by simp only [List.length_cons]; omega)]

lemma gridGet_rebuild_cells {depth width : ℕ} (g : Grid) {r c : ℕ}
    (hr : r < depth) (hc : c < width) :
    gridGet (rebuildGridAux width 0 (gridCellList depth width g)) (r, c) =
      gridGet g (r, c) := by
  rw [gridGet_rebuildAux _ _ _ _ hc]
  have hj : r * width + c < depth * width := by
    calc r * width + c < r * width + width := by omega
      _ = (r + 1) * width := (Nat.succ_mul r width).symm
      _ ≤ depth * width := Nat.mul_le_mul_right width hr
  rw [if_pos ⟨Nat.zero_le _, by rw [gridCellList_length]; omega⟩, Nat.sub_zero,
    gridCellList, getD_map_range _ hj, (rowcol_div_mod hc).1, (rowcol_div_mod hc).2]

lemma filterMap_congr_mem {α β : Type} {f g : α → Option β} {l : List α}
    (h : ∀ a ∈ l, f a = g a) : l.filterMap f = l.filterMap g := by
  induction l with
  | nil => rfl
  | cons a rest ih =>
    rw [List.filterMap_cons, List.filterMap_cons, h a (by simp),
      ih fun x hx => h x (by simp [hx])]

lemma estimateGrid_rebuild {depth width : ℕ} (g : Grid) (hw : 0 < width)
    (key : List ℕ) :
    estimateGrid depth width (rebuildGridAux width 0 (gridCellList depth width g)) key =
      estimateGrid depth width g key := by
  rw [estimateGrid, estimateGrid, matchingCounters, matchingCounters]
  congr 1
  refine filterMap_congr_mem fun r hr => ?_
  have hcol : columnOf key r width < width := by
    rw [columnOf]
    exact Nat.mod_lt _ hw
  rw [gridGet_rebuild_cells g (List.mem_range.mp hr) hcol]

set_option maxHeartbeats 4000000 in
/-- C4: deserializing the serialization of any well-formed sketch state
succeeds and yields a state whose estimate for every key, whose top_k
sequence, and whose stats record exactly match the original (only the
PRNG state, which the format does not carry, is reset). -/
theorem deserialize_serialize (s : HeavyKeeper) (h : WellFormed s) :
    ∃ s', deserialize (serialize s) = .ok s' ∧
      (∀ key, estimate s' key = estimate s key) ∧
      top_k s' = top_k s ∧ stats s' = stats s := by
  obtain ⟨hk, hd, hw, heps, hdel, hen, hed, hdn, hdd, hdepth, hwidth, htot, htl, htr, hgc⟩ := h
  have hmkeps : mkRat (↑s.epsilon.num.toNat) s.epsilon.den = s.epsilon := by
    rw [Int.toNat_of_nonneg (le_of_lt (Rat.num_pos.mpr heps)), Rat.mkRat_self]
  have hmkdel : mkRat (↑s.delta.num.toNat) s.delta.den = s.delta := by
    rw [Int.toNat_of_nonneg (le_of_lt (Rat.num_pos.mpr hdel)), Rat.mkRat_self]
  have hwpos : 0 < s.width := hwidth ▸ derivedWidth_pos heps
  have hlast := readEntries_flatMap htr []
  rw [List.append_nil] at hlast
  have haux : deserializeAux (serialize s) = some
      { k := s.k, epsilon := s.epsilon, delta := s.delta, depth := s.depth,
        width := s.width,
        grid := rebuildGridAux s.width 0 (gridCellList s.depth s.width s.grid),
        tracker := s.tracker, totalUpdates := s.totalUpdates, rng := 0 } := by
    unfold deserializeAux serialize
    simp only [List.append_assoc]
    rw [readFixed_enc hk]
    simp only [Option.bind_eq_bind, Option.some_bind]
    rw [readFixed_enc hd]
    simp only [Option.bind_eq_bind, Option.some_bind]
    rw [readFixed_enc hw]
    simp only [Option.bind_eq_bind, Option.some_bind]
    rw [readFixed_enc hen]
    simp only [Option.bind_eq_bind, Option.some_bind]
    rw [readFixed_enc hed]
    simp only [Option.bind_eq_bind, Option.some_bind]
    rw [readFixed_enc hdn]
    simp only [Option.bind_eq_bind, Option.some_bind]
    rw [readFixed_enc hdd]
    simp only [Option.bind_eq_bind, Option.some_bind]
    rw [readFixed_enc htot]
    simp only [Option.bind_eq_bind, Option.some_bind]
    rw [hmkeps, hmkdel, if_pos ⟨hdepth, hwidth⟩]
    rw [show s.depth * s.width = (gridCellList s.depth s.width s.grid).length from
      (gridCellList_length _ _ _).symm]
    rw [readCells_flatMap hgc]
    simp only [Option.bind_eq_bind, Option.some_bind]
    rw [readFixed_enc htl]
    simp only [Option.bind_eq_bind, Option.some_bind]
    rw [hlast]
    simp only [Option.bind_eq_bind, Option.some_bind]
    simp only [if_true]
  refine ⟨_, by rw [deserialize, haux], ?_, ?_, ?_⟩
  · intro key
    exact estimateGrid_rebuild s.grid hwpos key
  · rfl
  · rfl

/-- Witness for C4: the round-trip of a concrete (9/10, 1/2) sketch after
two updates reproduces its estimates, top_k and stats. -/
theorem deserialize_serialize_witness :
    ∃ s', deserialize (serialize
        (update (update ⟨10, mkRat 9 10, mkRat 1 2, 1, 4, [], [], 0, 0⟩ [1] 1) [2] 3)) =
        .ok s' ∧
      (∀ key, estimate s' key =
        estimate (update (update ⟨10, mkRat 9 10, mkRat 1 2, 1, 4, [], [], 0, 0⟩ [1] 1)
          [2] 3) key) ∧
      top_k s' = top_k (update (update ⟨10, mkRat 9 10, mkRat 1 2, 1, 4, [], [], 0, 0⟩
        [1] 1) [2] 3) ∧
      stats s' = stats (update (update ⟨10, mkRat 9 10, mkRat 1 2, 1, 4, [], [], 0, 0⟩
        [1] 1) [2] 3) :=
  deserialize_serialize _ (by decide)

/-- C7: in every reachable state of a sketch constructed with parameter k,
top_k() returns at most k entries, ordered by non-increasing estimate. -/
theorem top_k_bounded_sorted {s : HeavyKeeper} (h : Reachable s) :
    (top_k s).length ≤ s.k ∧ SortedDesc (top_k s) := by
  obtain ⟨-, -, -, -, hsort, hlen⟩ := inv_of_reachable h
  exact ⟨hlen, hsort⟩

/-- Witness for C7: a freshly built (9/10, 1/2) sketch after two updates
has a top_k of at most k entries in non-increasing order. -/
theorem top_k_bounded_sorted_witness :
    (top_k (update (update ⟨10, mkRat 9 10, mkRat 1 2, 1, 4, [], [], 0, 0⟩ [1] 1) [2] 3)).length ≤
      (update (update ⟨10, mkRat 9 10, mkRat 1 2, 1, 4, [], [], 0, 0⟩ [1] 1) [2] 3).k ∧
    SortedDesc (top_k (update (update ⟨10, mkRat 9 10, mkRat 1 2, 1, 4, [], [], 0, 0⟩ [1] 1)
      [2] 3)) :=
  top_k_bounded_sorted
    (Reachable.step_update
      (Reachable.step_update
        (@Reachable.construct 10 (mkRat 9 10) (mkRat 1 2) 0 _ (by decide))
        Nat.one_pos)
      (by omega))

/-- C8: in every reachable state, every grid position holds a nonzero
counter exactly when it holds a nonzero fingerprint, and a zero fingerprint
means the cell is exactly the distinguished empty cell (0, 0): decay and
eviction clear or set the two fields together. -/
theorem grid_cell_invariant {s : HeavyKeeper} (h : Reachable s) :
    ∀ p : ℕ × ℕ,
      ((gridGet s.grid p).counter ≠ 0 ↔ (gridGet s.grid p).fingerprint ≠ 0) ∧
      ((gridGet s.grid p).fingerprint = 0 → gridGet s.grid p = emptyCell) := by
  have hcp := (inv_of_reachable h).2.2.1
  intro p
  rcases cellsPos_gridGet hcp p with hc | hc
  · rw [hc]
    exact ⟨Iff.rfl, fun _ => rfl⟩
  · exact ⟨iff_of_true hc.2 hc.1, fun h0 => absurd h0 hc.1⟩

/-- Witness for C8: the cell invariant holds at the position (0, 0) of the
sketch obtained by updating a fresh (9/10, 1/2) sketch, decaying it, and
batch-updating it. -/
theorem grid_cell_invariant_witness :
    ((gridGet (update_batch (decay (update ⟨10, mkRat 9 10, mkRat 1 2, 1, 4, [], [], 0, 0⟩
        [3] 2)) [[5], [3]]).grid (0, 0)).counter ≠ 0 ↔
      (gridGet (update_batch (decay (update ⟨10, mkRat 9 10, mkRat 1 2, 1, 4, [], [], 0, 0⟩
        [3] 2)) [[5], [3]]).grid (0, 0)).fingerprint ≠ 0) ∧
    ((gridGet (update_batch (decay (update ⟨10, mkRat 9 10, mkRat 1 2, 1, 4, [], [], 0, 0⟩
        [3] 2)) [[5], [3]]).grid (0, 0)).fingerprint = 0 →
      gridGet (update_batch (decay (update ⟨10, mkRat 9 10, mkRat 1 2, 1, 4, [], [], 0, 0⟩
        [3] 2)) [[5], [3]]).grid (0, 0) = emptyCell) :=
  grid_cell_invariant
    (Reachable.step_batch
      (Reachable.step_decay
        (Reachable.step_update
          (@Reachable.construct 10 (mkRat 9 10) (mkRat 1 2) 0 _ (by decide))
          (by omega))))
    (0, 0)

end SketchOxide
